import Mathlib

/-!
# Verification of the Anatta cross-exchange arbitrage core

A shallow embedding of the decision-and-execution pipeline of the Anatta
repository: `spread_detector.py` (quote book and spread computation),
`risk_manager.py` (per-instrument trip counters), `session_scheduler.py`
(start-of-day reset) and `order_executor.py` (rate limiting, single-leg
submit-and-wait, and the paired-order `_send` routine).

Python `float` prices are modelled as exact rationals (`ℚ`); Python `dict`s
are modelled as association lists in which an insert replaces the existing
binding for its key, so a key is bound at most once.  Python exceptions are
modelled with `Except`: an expression that can raise returns `Except ε α`.
-/

namespace Anatta

/-! ## Data model (`symbol_loader.py`, `data_feed.py`, `spread_detector.py`) -/

/-- Dataclass `Symbol` from `symbol_loader.py`: a dual-listed instrument with its KRX
code, its NXT code and a display name. -/
structure Symbol where
  krx_code : String
  nxt_code : String
  name : String
deriving DecidableEq

/-- Dataclass `Tick` from `data_feed.py`: a normalized market update carrying the
symbol, the venue name (`"KRX"` or `"NXT"`), and best bid / best ask. -/
structure Tick where
  symbol : Symbol
  exchange : String
  bid : ℚ
  ask : ℚ
deriving DecidableEq

/-- Dataclass `TradeIntent` from `spread_detector.py`. -/
structure TradeIntent where
  symbol : Symbol
  buy_exchange : String
  sell_exchange : String
  qty : ℤ
deriving DecidableEq

/-! ## The quote book

`SpreadDetector.book` is a Python `dict` keyed by `(symbol.krx_code,
exchange)`.  We model it as an association list where inserting a key first
removes any previous binding of that key, exactly as a `dict` assignment
keeps a single entry per key. -/

/-- Key of the quote book: `(symbol.krx_code, exchange)`. -/
abbrev BookKey := String × String

/-- The quote book: at most one `Tick` per key, newest binding first. -/
def Book := List (BookKey × Tick)

/-- Lookup in an association list: the value bound to the first (and, for a
dict, only) occurrence of the key. -/
def alookup {α β : Type} [DecidableEq α] : List (α × β) → α → Option β
  | [], _ => none
  | p :: l, k => if p.1 = k then some p.2 else alookup l k

/-- Remove every binding of a key from an association list. -/
def aremove {α β : Type} [DecidableEq α] : List (α × β) → α → List (α × β)
  | [], _ => []
  | p :: l, k => if p.1 = k then aremove l k else p :: aremove l k

/-- Python `dict` assignment: bind the key, dropping any previous binding, so
the key stays bound at most once. -/
def ainsert {α β : Type} [DecidableEq α] (l : List (α × β)) (k : α) (v : β) :
    List (α × β) :=
  (k, v) :: aremove l k

/-- Python `dict.get`: the value bound to `k`, if any. -/
def Book.get (b : Book) (k : BookKey) : Option Tick :=
  alookup b k

/-- Python `dict` assignment `b[k] = t`: replace any existing binding of `k`. -/
def Book.insert (b : Book) (k : BookKey) (t : Tick) : Book :=
  ainsert b k t

/-- The key under which `SpreadDetector.on_tick` stores a tick. -/
def tickKey (t : Tick) : BookKey := (t.symbol.krx_code, t.exchange)

/-! ## Spread detector (`spread_detector.py`) -/

/-- A Python runtime error escaping `on_tick`: the unguarded divisions
`(... ) / krx_tick.ask` and `(...) / nxt_tick.ask` raise `ZeroDivisionError`
when the divisor is zero. -/
inductive PyError where
  | zeroDivision
deriving DecidableEq

/-- Class `SpreadDetector`: fee and buffer configuration (defaults `0.00035` and
`0.0001`) plus the quote book. -/
structure SpreadDetector where
  fees : ℚ
  buffer : ℚ
  book : Book

/-- Method `SpreadDetector.on_tick`, translated statement by statement.  The tick is
stored first (this mutation happens even when a later division raises); then
both venue quotes for the tick's symbol are looked up; if both are present
the two directional spreads are computed in source order, each unguarded
division raising `ZeroDivisionError` on a zero ask.  Returns the updated
detector together with the list of intents (or the raised error). -/
def onTick (d : SpreadDetector) (tick : Tick) :
    SpreadDetector × Except PyError (List TradeIntent) :=
  let book := d.book.insert (tick.symbol.krx_code, tick.exchange) tick
  let d' : SpreadDetector := { d with book := book }
  let krx := book.get (tick.symbol.krx_code, "KRX")
  let nxt := book.get (tick.symbol.krx_code, "NXT")
  let threshold := d.fees + d.buffer
  match krx, nxt with
  | some krx_tick, some nxt_tick =>
    if krx_tick.ask = 0 then
      (d', Except.error PyError.zeroDivision)
    else
      let spread_kn := (nxt_tick.bid - krx_tick.ask) / krx_tick.ask
      let intents_kn :=
        if spread_kn > threshold then
          [TradeIntent.mk tick.symbol "KRX" "NXT" 1]
        else []
      if nxt_tick.ask = 0 then
        (d', Except.error PyError.zeroDivision)
      else
        let spread_nk := (krx_tick.bid - nxt_tick.ask) / nxt_tick.ask
        let intents_nk :=
          if spread_nk > threshold then
            [TradeIntent.mk tick.symbol "NXT" "KRX" 1]
          else []
        (d', Except.ok (intents_kn ++ intents_nk))
  | _, _ => (d', Except.ok [])

/-- Run a sequence of ticks through the detector, keeping only the book
state (the emitted intents are consumed downstream). -/
def runTicks (d : SpreadDetector) (ts : List Tick) : SpreadDetector :=
  ts.foldl (fun d t => (onTick d t).1) d

/-! ## Risk manager (`risk_manager.py`) and scheduler (`session_scheduler.py`) -/

/-- The `RiskManager.counts` dict, keyed by `symbol.krx_code`. -/
def Counts := List (String × ℕ)

/-- Python `counts.get(key, 0)`. -/
def Counts.get (c : Counts) (k : String) : ℕ :=
  (alookup c k).getD 0

/-- Assignment `counts[key] = v`: replace any existing binding of `key`. -/
def Counts.set (c : Counts) (k : String) (v : ℕ) : Counts :=
  ainsert c k v

/-- Class `RiskManager`: a per-symbol trip cap (default 20) and the counters. -/
structure RiskManager where
  max_trips : ℕ
  counts : Counts

/-- Method `RiskManager.approve`: read the current count for the intent's
`krx_code`; if it already reached `max_trips`, return `False` without any
mutation; otherwise store `current + 1` and return `True`. -/
def approve (rm : RiskManager) (intent : TradeIntent) : RiskManager × Bool :=
  let key := intent.symbol.krx_code
  let current := rm.counts.get key
  if current ≥ rm.max_trips then
    (rm, false)
  else
    ({ rm with counts := rm.counts.set key (current + 1) }, true)

/-- Method `RiskManager.reset_counts`: `self.counts.clear()`. -/
def reset_counts (rm : RiskManager) : RiskManager :=
  { rm with counts := [] }

/-- Method `DailySessionScheduler.start_session`: reset the risk manager. -/
def start_session (rm : RiskManager) : RiskManager :=
  reset_counts rm

/-- One pipeline action against the risk manager, for reachability. -/
inductive RMAction where
  | approveA (intent : TradeIntent)
  | resetA
deriving DecidableEq

/-- Run a sequence of `approve` / `reset_counts` calls. -/
def runRM (rm : RiskManager) (acts : List RMAction) : RiskManager :=
  acts.foldl
    (fun rm a =>
      match a with
      | RMAction.approveA i => (approve rm i).1
      | RMAction.resetA => reset_counts rm)
    rm

/-- Thread a list of intents through `approve`, collecting the verdicts. -/
def approveAll (rm : RiskManager) (intents : List TradeIntent) :
    RiskManager × List Bool :=
  match intents with
  | [] => (rm, [])
  | i :: rest =>
    let p := approve rm i
    let q := approveAll p.1 rest
    (q.1, p.2 :: q.2)

/-! ## Order executor (`order_executor.py`)

Real time is made explicit: the executor's clock is a rational number of
seconds, `time.sleep(d)` advances it by exactly `d`, and everything else is
idealised as taking zero time.  The "chejan" fill-event queue is the list of
events the transport will deliver, each tagged with its arrival time, in
arrival order. -/

/-- Exception `OrderError` from `order_executor.py`, split by the three raise sites of
`_submit_and_wait`. -/
inductive OrderError where
  /-- Kiwoom `SendOrder` returned a non-zero code: submission rejected. -/
  | sendOrderFailed (ret : ℤ)
  /-- A correlated chejan event carried a truthy error field. -/
  | fillError (msg : String)
  /-- No correlated event arrived before the 5-second deadline. -/
  | noConfirmation
deriving DecidableEq

/-- An entry of the `_chejan_q` queue as filled by `_on_chejan`: the
instrument code (FID 9001) and the error field (FID 919, empty string when
absent or falsy), tagged with the time it becomes available on the queue. -/
structure ChejanEvent where
  arrival : ℚ
  code : String
  error : String
deriving DecidableEq

/-- The wait loop of `_submit_and_wait`: consume queued events in arrival
order while the clock is before `deadline`.  An event arriving at or after
the deadline is never received (`queue.Empty` → `break` → raise
`No fill confirmation received`); a received event whose code differs from
the awaited one is discarded and the loop continues; a received event with
the awaited code raises `OrderError` if its error field is truthy and
otherwise confirms the fill. -/
def waitForFill (code : String) (deadline : ℚ) :
    List ChejanEvent → Except OrderError Unit
  | [] => Except.error OrderError.noConfirmation
  | e :: rest =>
    if deadline ≤ e.arrival then
      Except.error OrderError.noConfirmation
    else if e.code = code then
      if e.error = "" then Except.ok () else Except.error (OrderError.fillError e.error)
    else
      waitForFill code deadline rest

/-- Method `OrderExecutor._submit_and_wait` for a single leg.  `ret` is the value
returned by `session.SendOrder`; `start` is the clock value right after the
submission (so the confirmation deadline is `start + 5`); `events` is the
chejan queue content.  A non-zero `ret` raises immediately; otherwise the
wait loop decides the outcome. -/
def submit_and_wait (ret : ℤ) (code : String) (start : ℚ)
    (events : List ChejanEvent) : Except OrderError Unit :=
  if ret ≠ 0 then Except.error (OrderError.sendOrderFailed ret)
  else waitForFill code (start + 5) events

/-! ### Rate limiter (`OrderExecutor._throttle`) -/

/-- The `_req_times` deque (`maxlen=5`), oldest timestamp first. -/
structure Throttle where
  req_times : List ℚ
deriving DecidableEq

/-- Method `OrderExecutor._throttle` with the clock explicit.  `now` is the clock
when the call starts.  If the deque holds 5 timestamps and less than one
second elapsed since the oldest, sleep exactly the deficit `1 - (now -
oldest)`; then append the current clock value to the deque, evicting the
oldest entry when the deque is full.  Returns the new deque together with
the recorded timestamp (the clock when the call returns). -/
def throttle (st : Throttle) (now : ℚ) : Throttle × ℚ :=
  match st.req_times with
  | old :: rest =>
    if (old :: rest).length = 5 then
      let t := if now - old < 1 then old + 1 else now
      (Throttle.mk (rest ++ [t]), t)
    else
      (Throttle.mk ((old :: rest) ++ [now]), now)
  | [] => (Throttle.mk [now], now)

/-- Run `_throttle` over a list of call-start clock values, collecting the
recorded timestamps. -/
def throttleRun (st : Throttle) : List ℚ → Throttle × List ℚ
  | [] => (st, [])
  | now :: rest =>
    let p := throttle st now
    let q := throttleRun p.1 rest
    (q.1, p.2 :: q.2)

/-- The clock never runs backwards: each call's start time is at least the
time at which the previous call returned (its recorded timestamp). -/
def validCalls (last : ℚ) (st : Throttle) : List ℚ → Prop
  | [] => True
  | now :: rest =>
    last ≤ now ∧ validCalls (throttle st now).2 (throttle st now).1 rest

instance (last : ℚ) (st : Throttle) (nows : List ℚ) :
    Decidable (validCalls last st nows) := by
  induction nows generalizing last st with
  | nil => exact isTrue trivial
  | cons now rest ih => exact @instDecidableAnd _ _ inferInstance (ih _ _)

/-! ### Paired-order submission (`OrderExecutor._send`) -/

/-- An order submission as passed to `SendOrder`: instrument code, side and
quantity. -/
structure Submission where
  code : String
  side : String
  qty : ℤ
deriving DecidableEq

/-- What executing a trade intent can raise. -/
inductive SendError where
  /-- Python `NotImplementedError` with its message. -/
  | notImplementedError (msg : String)
  /-- An `OrderError` escaping a leg. -/
  | orderError (e : OrderError)
deriving DecidableEq

/-- Method `OrderExecutor._send` as written: its first statement is
`raise NotImplementedError("Order submission to Kiwoom pending")`, so every
call raises before any order is submitted.  The second component is the
trace of submissions attempted (always empty). -/
def send (_intent : TradeIntent) : Except SendError Unit × List Submission :=
  (Except.error (SendError.notImplementedError "Order submission to Kiwoom pending"), [])

/-- Buy-leg code resolution from the dead body of `_send`:
`intent.symbol.krx_code if intent.buy_exchange == "KRX" else intent.symbol.nxt_code`. -/
def buyCode (intent : TradeIntent) : String :=
  if intent.buy_exchange = "KRX" then intent.symbol.krx_code else intent.symbol.nxt_code

/-- Sell-leg code resolution from the dead body of `_send`. -/
def sellCode (intent : TradeIntent) : String :=
  if intent.sell_exchange = "KRX" then intent.symbol.krx_code else intent.symbol.nxt_code

/-- The statements of `_send` after the initial `raise`, i.e. the protocol
the method's own docstring documents, made reachable: submit-and-confirm the
buy leg (first leg outcome `buyRes`); on success submit-and-confirm the sell
leg (`sellRes`); if the sell leg raises an `OrderError`, attempt exactly one
flattening SELL of the same quantity on the buy-leg code (`flatRes`, whose
outcome is swallowed by the inner `try/except OrderError: pass`) and re-raise
the sell leg's error.  Returns the outcome and the trace of submissions. -/
def sendBody (intent : TradeIntent)
    (buyRes sellRes _flatRes : Except OrderError Unit) :
    Except SendError Unit × List Submission :=
  let buySub : Submission := Submission.mk (buyCode intent) "BUY" intent.qty
  let sellSub : Submission := Submission.mk (sellCode intent) "SELL" intent.qty
  let flatSub : Submission := Submission.mk (buyCode intent) "SELL" intent.qty
  match buyRes with
  | Except.error e => (Except.error (SendError.orderError e), [buySub])
  | Except.ok _ =>
    match sellRes with
    | Except.ok _ => (Except.ok (), [buySub, sellSub])
    | Except.error e =>
      (Except.error (SendError.orderError e), [buySub, sellSub, flatSub])

/-! ## Concrete fixtures used by witnesses and counterexamples -/

/-- A concrete dual-listed instrument. -/
def sym0 : Symbol := Symbol.mk "005930" "A005930" "SamsungElec"

/-- A concrete trade intent on `sym0`. -/
def intent0 : TradeIntent := TradeIntent.mk sym0 "KRX" "NXT" 1

/-! ## Association-list lemmas -/

theorem alookup_aremove_self {α β : Type} [DecidableEq α]
    (l : List (α × β)) (k : α) : alookup (aremove l k) k = none := by
  induction l with
  | nil => rfl
  | cons p l ih =>
    by_cases hp : p.1 = k
    · simpa [aremove, hp] using ih
    · simpa [aremove, alookup, hp] using ih

theorem alookup_aremove_ne {α β : Type} [DecidableEq α]
    (l : List (α × β)) (k k' : α) (h : ¬ k' = k) :
    alookup (aremove l k) k' = alookup l k' := by
  induction l with
  | nil => rfl
  | cons p l ih =>
    by_cases hp : p.1 = k
    · have hp' : ¬ p.1 = k' := by
        rw [hp]
        exact fun hh => h hh.symm
      rw [show aremove (p :: l) k = aremove l k by simp [aremove, hp]]
      rw [show alookup (p :: l) k' = alookup l k' by simp [alookup, hp']]
      exact ih
    · rw [show aremove (p :: l) k = p :: aremove l k by simp [aremove, hp]]
      by_cases hp' : p.1 = k'
      · rw [show alookup (p :: aremove l k) k' = some p.2 by
          simp [alookup, hp']]
        rw [show alookup (p :: l) k' = some p.2 by simp [alookup, hp']]
      · rw [show alookup (p :: aremove l k) k' = alookup (aremove l k) k' by
          simp [alookup, hp']]
        rw [show alookup (p :: l) k' = alookup l k' by simp [alookup, hp']]
        exact ih

theorem alookup_ainsert_self {α β : Type} [DecidableEq α]
    (l : List (α × β)) (k : α) (v : β) :
    alookup (ainsert l k v) k = some v := by
  simp [ainsert, alookup]

theorem alookup_ainsert_ne {α β : Type} [DecidableEq α]
    (l : List (α × β)) (k k' : α) (v : β) (h : ¬ k' = k) :
    alookup (ainsert l k v) k' = alookup l k' := by
  have hk : ¬ (k = k') := fun hh => h hh.symm
  simp [ainsert, alookup, hk, alookup_aremove_ne l k k' h]

theorem Counts.get_set_self (c : Counts) (k : String) (v : ℕ) :
    (c.set k v).get k = v := by
  simp [Counts.get, Counts.set, alookup_ainsert_self]

theorem Counts.get_set_ne (c : Counts) (k k' : String) (v : ℕ)
    (h : ¬ k' = k) : (c.set k v).get k' = c.get k' := by
  simp [Counts.get, Counts.set, alookup_ainsert_ne c k k' v h]

theorem Book.get_insert_self (b : Book) (k : BookKey) (t : Tick) :
    (b.insert k t).get k = some t := by
  simp [Book.get, Book.insert, alookup_ainsert_self]

theorem Book.get_insert_ne (b : Book) (k k' : BookKey) (t : Tick)
    (h : ¬ k' = k) : (b.insert k t).get k' = b.get k' := by
  simp [Book.get, Book.insert, alookup_ainsert_ne b k k' t h]

theorem Book.get_insert (b : Book) (k k' : BookKey) (t : Tick) :
    (b.insert k t).get k' = if k' = k then some t else b.get k' := by
  by_cases h : k' = k
  · subst h
    simp [Book.get_insert_self]
  · simp [Book.get_insert_ne b k k' t h, h]

/-! ## Risk manager lemmas -/

/-- The cap field is never mutated by `approve`. -/
theorem approve_max_trips (rm : RiskManager) (i : TradeIntent) :
    (approve rm i).1.max_trips = rm.max_trips := by
  by_cases h : rm.counts.get i.symbol.krx_code ≥ rm.max_trips <;>
    simp [approve, h]

/-- The cap field is never mutated along any action sequence. -/
theorem runRM_max_trips (acts : List RMAction) (rm : RiskManager) :
    (runRM rm acts).max_trips = rm.max_trips := by
  induction acts generalizing rm with
  | nil => rfl
  | cons a acts ih =>
    cases a with
    | approveA i =>
      simpa [runRM, approve_max_trips] using
        (ih (approve rm i).1).trans (approve_max_trips rm i)
    | resetA => simpa [runRM] using ih (reset_counts rm)

/-- A single `approve` never decreases any stored count. -/
theorem approve_count_mono (rm : RiskManager) (i : TradeIntent) (k : String) :
    rm.counts.get k ≤ (approve rm i).1.counts.get k := by
  by_cases h : rm.counts.get i.symbol.krx_code ≥ rm.max_trips
  · simp [approve, h]
  · by_cases hk : k = i.symbol.krx_code
    · subst hk
      simp [approve, h, Counts.get_set_self]
    · simp [approve, h, Counts.get_set_ne _ _ _ _ hk]

/-- Counts are monotone along reset-free action sequences. -/
theorem runRM_count_mono (acts : List RMAction) (rm : RiskManager)
    (k : String) (hnr : ∀ a ∈ acts, a ≠ RMAction.resetA) :
    rm.counts.get k ≤ (runRM rm acts).counts.get k := by
  induction acts generalizing rm with
  | nil => exact le_refl _
  | cons a acts ih =>
    cases a with
    | approveA i =>
      have h1 := approve_count_mono rm i k
      have h2 := ih (approve rm i).1
        (fun a ha => hnr a (List.mem_cons_of_mem _ ha))
      simpa [runRM] using le_trans h1 h2
    | resetA =>
      exact absurd rfl (hnr RMAction.resetA (List.mem_cons_self _ _))

/-- A single `approve` keeps every count bounded by the cap. -/
theorem approve_count_le (rm : RiskManager) (i : TradeIntent) (k : String)
    (hinv : ∀ k', rm.counts.get k' ≤ rm.max_trips) :
    (approve rm i).1.counts.get k ≤ rm.max_trips := by
  by_cases h : rm.counts.get i.symbol.krx_code ≥ rm.max_trips
  · simp [approve, h, hinv k]
  · by_cases hk : k = i.symbol.krx_code
    · subst hk
      simp [approve, h, Counts.get_set_self]
      omega
    · simp [approve, h, Counts.get_set_ne _ _ _ _ hk, hinv k]

/-- Every count in a reachable state is bounded by the cap. -/
theorem runRM_count_le (acts : List RMAction) (rm : RiskManager) (k : String)
    (hinv : ∀ k', rm.counts.get k' ≤ rm.max_trips) :
    (runRM rm acts).counts.get k ≤ rm.max_trips := by
  induction acts generalizing rm with
  | nil => exact hinv k
  | cons a acts ih =>
    cases a with
    | approveA i =>
      have hnext : ∀ k', (approve rm i).1.counts.get k'
          ≤ (approve rm i).1.max_trips := by
        intro k'
        rw [approve_max_trips]
        exact approve_count_le rm i k' hinv
      have := ih (approve rm i).1 hnext
      rw [approve_max_trips] at this
      simpa [runRM] using this
    | resetA =>
      have hnext : ∀ k', (reset_counts rm).counts.get k'
          ≤ (reset_counts rm).max_trips := by
        intro k'
        simp [reset_counts, Counts.get, alookup]
      have := ih (reset_counts rm) hnext
      simpa [runRM, reset_counts] using this

/-- Characterisation of rejection: `approve` answers `False` exactly when the
stored count already reached the cap. -/
theorem approve_false_iff (rm : RiskManager) (i : TradeIntent) :
    (approve rm i).2 = false
      ↔ rm.counts.get i.symbol.krx_code ≥ rm.max_trips := by
  by_cases h : rm.counts.get i.symbol.krx_code ≥ rm.max_trips <;>
    simp [approve, h]

/-- Claim C3, as stated, is false: a rejected `approve` call leaves the stored
count unchanged.  Concretely, with a cap of 1 and the count for `"005930"`
already at 1, `approve` returns `False` and the whole state — in particular
the stored count, still 1 — is untouched, whereas the claim requires the
count to rise to 2. -/
theorem C3_counterexample :
    approve (RiskManager.mk 1 [("005930", 1)]) intent0
      = (RiskManager.mk 1 [("005930", 1)], false) := rfl

/-- Claim C3 (amended): on every `approve` call, the counter stored for the
proposal's key increases by exactly one when the call approves, and the
gate's state (hence the count) is left completely unchanged when the call
rejects — the count only stops rising because rejected calls do not
increment it. -/
theorem C3_increment_only_on_approval (rm : RiskManager) (i : TradeIntent) :
    ((approve rm i).2 = true →
      (approve rm i).1.counts.get i.symbol.krx_code
        = rm.counts.get i.symbol.krx_code + 1)
    ∧ ((approve rm i).2 = false → (approve rm i).1 = rm) := by
  by_cases h : rm.counts.get i.symbol.krx_code ≥ rm.max_trips
  · simp [approve, h]
  · simp [approve, h, Counts.get_set_self]

/-- Witness for C3: at cap 20 from the empty state an approval bumps the
count from 0 to 1; at cap 0 a rejection returns the state unchanged. -/
theorem C3_witness :
    ((approve (RiskManager.mk 20 []) intent0).1.counts.get
        intent0.symbol.krx_code
      = (RiskManager.mk 20 [] : RiskManager).counts.get
          intent0.symbol.krx_code + 1)
    ∧ ((approve (RiskManager.mk 0 []) intent0).1 = RiskManager.mk 0 []) :=
  ⟨(C3_increment_only_on_approval (RiskManager.mk 20 []) intent0).1 rfl,
   (C3_increment_only_on_approval (RiskManager.mk 0 []) intent0).2 rfl⟩

/-- Verdict sequence of `approve` on a run of same-key intents: the `n`-th
verdict (0-based) is `True` exactly while the starting count plus `n` is
still below the cap. -/
theorem approveAll_bools (intents : List TradeIntent) (k : String)
    (rm : RiskManager) (hk : ∀ i ∈ intents, i.symbol.krx_code = k) :
    (approveAll rm intents).2
      = (List.range intents.length).map
          (fun n => decide (rm.counts.get k + n < rm.max_trips)) := by
  induction intents generalizing rm with
  | nil => rfl
  | cons i rest ih =>
    have hik : i.symbol.krx_code = k := hk i (List.mem_cons_self _ _)
    have hrest : ∀ j ∈ rest, j.symbol.krx_code = k :=
      fun j hj => hk j (List.mem_cons_of_mem _ hj)
    rw [List.length_cons, List.range_succ_eq_map, List.map_cons, List.map_map]
    by_cases h : rm.counts.get k ≥ rm.max_trips
    · have happ : approve rm i = (rm, false) := by
        simp [approve, hik, h]
      have hhead : decide (rm.counts.get k + 0 < rm.max_trips) = false := by
        simp
        omega
      have htail : ∀ m : ℕ,
          List.map (fun n => decide (rm.counts.get k + n < rm.max_trips))
            (List.range m)
          = List.map
              ((fun n => decide (rm.counts.get k + n < rm.max_trips))
                ∘ Nat.succ) (List.range m) := by
        intro m
        apply List.map_congr_left
        intro n _
        simp only [Function.comp]
        rw [decide_eq_decide]
        omega
      calc (approveAll rm (i :: rest)).2
          = (approve rm i).2 :: (approveAll (approve rm i).1 rest).2 := rfl
        _ = false :: (approveAll rm rest).2 := by rw [happ]
        _ = false :: List.map
              (fun n => decide (rm.counts.get k + n < rm.max_trips))
              (List.range rest.length) := by rw [ih rm hrest]
        _ = _ := by rw [hhead, htail rest.length]
    · have happ : approve rm i
          = ({ rm with
                counts := rm.counts.set k (rm.counts.get k + 1) }, true) := by
        simp [approve, hik, h]
      have hhead : decide (rm.counts.get k + 0 < rm.max_trips) = true := by
        simp
        omega
      have hstate :
          ({ rm with counts := rm.counts.set k (rm.counts.get k + 1) }
              : RiskManager).counts.get k
            = rm.counts.get k + 1 := Counts.get_set_self _ _ _
      calc (approveAll rm (i :: rest)).2
          = (approve rm i).2 :: (approveAll (approve rm i).1 rest).2 := rfl
        _ = true :: (approveAll
              { rm with
                counts := rm.counts.set k (rm.counts.get k + 1) } rest).2 := by
            rw [happ]
        _ = true :: List.map
              (fun n => decide (rm.counts.get k + 1 + n < rm.max_trips))
              (List.range rest.length) := by
            rw [ih _ hrest, hstate]
        _ = _ := by
            rw [hhead]
            congr 1
            apply List.map_congr_left
            intro n _
            simp only [Function.comp]
            rw [decide_eq_decide]
            omega

/-- Claim C4, as stated, is false for cap 0: after `reset_counts` (invoked
via `start_session`) the very next `approve` call still returns `False`,
because the fresh count 0 already reaches the cap. -/
theorem C4_counterexample :
    (approve (start_session (RiskManager.mk 0 [("005930", 5)])) intent0).2
      = false := rfl

/-- Claim C4 (amended): for every cap and instrument, starting from the
empty counter state, a run of `approve` calls for that instrument returns
`True` for exactly the first `cap` calls and `False` for every later call;
and, provided the cap is at least 1, after `start_session` the next single
`approve` call returns `True` regardless of prior history. -/
theorem C4_cap_then_reject (cap : ℕ) (intents : List TradeIntent)
    (k : String) (hk : ∀ i ∈ intents, i.symbol.krx_code = k) :
    ((approveAll (RiskManager.mk cap []) intents).2
      = (List.range intents.length).map (fun n => decide (n < cap)))
    ∧ (1 ≤ cap → ∀ (c : Counts) (i : TradeIntent),
        (approve (start_session (RiskManager.mk cap c)) i).2 = true) := by
  constructor
  · rw [approveAll_bools intents k (RiskManager.mk cap []) hk]
    apply List.map_congr_left
    intro n _
    rw [decide_eq_decide]
    have : (RiskManager.mk cap [] : RiskManager).counts.get k = 0 := rfl
    rw [this]
    show 0 + n < cap ↔ n < cap
    omega
  · intro hcap c i
    have h0 : (start_session (RiskManager.mk cap c)).counts.get
        i.symbol.krx_code = 0 := rfl
    have : ¬ ((start_session (RiskManager.mk cap c)).counts.get
        i.symbol.krx_code ≥ (start_session (RiskManager.mk cap c)).max_trips) := by
      rw [h0]
      show ¬ (0 ≥ cap)
      omega
    simp [approve, this]

/-- Witness for C4: with cap 20, a single fresh call approves (`[true]` is
the verdict list), and after `start_session` on a state with prior history
the next call approves. -/
theorem C4_witness :
    ((approveAll (RiskManager.mk 20 []) [intent0]).2
      = (List.range 1).map (fun n => decide (n < 20)))
    ∧ ((approve (start_session (RiskManager.mk 20 [("005930", 100)]))
        intent0).2 = true) :=
  ⟨(C4_cap_then_reject 20 [intent0] "005930" (by
      intro i hi
      simp only [List.mem_singleton] at hi
      rw [hi]
      rfl)).1,
   (C4_cap_then_reject 20 [] "005930" (by intro i hi; cases hi)).2
     (by omega) [("005930", 100)] intent0⟩

/-- Claim C10: in every reachable state of the risk gate, every stored count
is at most `max_trips`; a rejected `approve` leaves the state completely
unchanged; and once `approve` answers `False` for a key, it keeps answering
`False` for that key across any further reset-free activity. -/
theorem C10_risk_gate_invariants :
    (∀ (cap : ℕ) (acts : List RMAction) (k : String),
        (runRM (RiskManager.mk cap []) acts).counts.get k ≤ cap)
    ∧ (∀ (rm : RiskManager) (i : TradeIntent),
        (approve rm i).2 = false → (approve rm i).1 = rm)
    ∧ (∀ (rm : RiskManager) (i : TradeIntent) (acts : List RMAction)
        (i' : TradeIntent),
        (approve rm i).2 = false →
        (∀ a ∈ acts, a ≠ RMAction.resetA) →
        i'.symbol.krx_code = i.symbol.krx_code →
        (approve (runRM (approve rm i).1 acts) i').2 = false) := by
  refine ⟨?_, ?_, ?_⟩
  · intro cap acts k
    exact runRM_count_le acts (RiskManager.mk cap []) k (by
      intro k'
      show Counts.get [] k' ≤ cap
      simp [Counts.get, alookup])
  · intro rm i h
    rw [approve_false_iff] at h
    simp [approve, h]
  · intro rm i acts i' hfalse hnr hkey
    have hge : rm.counts.get i.symbol.krx_code ≥ rm.max_trips :=
      (approve_false_iff rm i).mp hfalse
    have hsame : (approve rm i).1 = rm := by
      rw [approve_false_iff] at hfalse
      simp [approve, hfalse]
    rw [hsame]
    rw [approve_false_iff, runRM_max_trips, hkey]
    exact le_trans hge (runRM_count_mono acts rm i.symbol.krx_code hnr)

/-- Witness for C10: a reachable one-step state respects the cap; at cap 0 a
rejected call returns the state unchanged and a later call for the same key
is rejected again. -/
theorem C10_witness :
    ((runRM (RiskManager.mk 20 []) [RMAction.approveA intent0]).counts.get
        "005930" ≤ 20)
    ∧ ((approve (RiskManager.mk 0 []) intent0).1 = RiskManager.mk 0 [])
    ∧ ((approve (runRM (approve (RiskManager.mk 0 []) intent0).1
          [RMAction.approveA intent0]) intent0).2 = false) :=
  ⟨C10_risk_gate_invariants.1 20 [RMAction.approveA intent0] "005930",
   C10_risk_gate_invariants.2.1 (RiskManager.mk 0 []) intent0 rfl,
   C10_risk_gate_invariants.2.2 (RiskManager.mk 0 []) intent0
     [RMAction.approveA intent0] intent0 rfl
     (by intro a ha; simp only [List.mem_singleton] at ha; rw [ha]; intro hc; cases hc)
     rfl⟩

/-! ## Spread-detector lemmas and claims -/

/-- Whatever `on_tick` returns or raises, its state effect is exactly the
storing of the tick under `(krx_code, exchange)`. -/
theorem onTick_fst (d : SpreadDetector) (t : Tick) :
    (onTick d t).1 = { d with book := d.book.insert (tickKey t) t } := by
  simp only [onTick, tickKey]
  cases hkrx : Book.get (Book.insert d.book (t.symbol.krx_code, t.exchange) t)
      (t.symbol.krx_code, "KRX") with
  | none => rfl
  | some krx_tick =>
    cases hnxt : Book.get (Book.insert d.book (t.symbol.krx_code, t.exchange) t)
        (t.symbol.krx_code, "NXT") with
    | none => rfl
    | some nxt_tick =>
      by_cases h0 : krx_tick.ask = 0
      · simp [h0]
      · by_cases h1 : nxt_tick.ask = 0 <;>
          simp [h0, h1]

/-- Claim C5: if, after the incoming tick is stored, the book does not hold
quotes from both venues for the tick's instrument, then `on_tick` returns
the empty proposal list (and performs no spread computation — in particular
it cannot raise). -/
theorem C5_one_sided_book (d : SpreadDetector) (t : Tick)
    (h : (d.book.insert (tickKey t) t).get (t.symbol.krx_code, "KRX") = none
       ∨ (d.book.insert (tickKey t) t).get (t.symbol.krx_code, "NXT") = none) :
    onTick d t
      = ({ d with book := d.book.insert (tickKey t) t }, Except.ok []) := by
  simp only [tickKey] at h
  simp only [onTick]
  rcases h with h | h
  · rw [h]
    cases hn : Book.get (Book.insert d.book (t.symbol.krx_code, t.exchange) t)
        (t.symbol.krx_code, "NXT") <;> rfl
  · cases hk : Book.get (Book.insert d.book (t.symbol.krx_code, t.exchange) t)
        (t.symbol.krx_code, "KRX") with
    | none => rfl
    | some krx_tick =>
      rw [h]
      rfl

/-- A concrete KRX tick on `sym0` (spec §8 numbers: bid 99.5, ask 100). -/
def tick_krx : Tick := Tick.mk sym0 "KRX" (199/2) 100

/-- A concrete NXT tick on `sym0` (spec §8 numbers: bid 101, ask 101.5). -/
def tick_nxt : Tick := Tick.mk sym0 "NXT" 101 (203/2)

/-- Witness for C5: the first quote ever seen for `sym0` (KRX only) yields
the empty proposal list. -/
theorem C5_witness :
    onTick (SpreadDetector.mk (7/20000) (1/10000) []) tick_krx
      = ({ SpreadDetector.mk (7/20000) (1/10000) [] with
            book := Book.insert [] (tickKey tick_krx) tick_krx },
         Except.ok []) :=
  C5_one_sided_book (SpreadDetector.mk (7/20000) (1/10000) []) tick_krx
    (Or.inr rfl)

/-- A KRX tick whose ask price is zero (the normalized value the data feed
substitutes for a malformed upstream field). -/
def tick_krx_ask0 : Tick := Tick.mk sym0 "KRX" 100 0

/-- Claim C2 fails on the code: with quotes from both venues stored and the
KRX ask equal to zero, `on_tick` performs the division anyway and raises
`ZeroDivisionError`, instead of guarding it and treating that direction as
no signal. -/
theorem C2_zero_ask_raises :
    (onTick (onTick (SpreadDetector.mk (7/20000) (1/10000) []) tick_nxt).1
        tick_krx_ask0).2
      = Except.error PyError.zeroDivision := rfl

/-- Claim C6 (amended): when both venues have stored quotes and both stored
asks are non-zero, `on_tick` returns (never raises) the concatenation of the
buy-KRX/sell-NXT proposal (present iff `(nxt.bid − krx.ask)/krx.ask`
strictly exceeds `fees + buffer`) with the buy-NXT/sell-KRX proposal
(present iff `(krx.bid − nxt.ask)/nxt.ask` strictly exceeds it), each with
quantity 1 — so both directions are judged independently, the list has
length 0, 1 or 2, and the buy-KRX direction precedes the other. -/
theorem C6_both_directions (d : SpreadDetector) (t : Tick) (krx nxt : Tick)
    (hk : (d.book.insert (tickKey t) t).get (t.symbol.krx_code, "KRX")
        = some krx)
    (hn : (d.book.insert (tickKey t) t).get (t.symbol.krx_code, "NXT")
        = some nxt)
    (hka : ¬ krx.ask = 0) (hna : ¬ nxt.ask = 0) :
    ((onTick d t).2 = Except.ok
        ((if (nxt.bid - krx.ask) / krx.ask > d.fees + d.buffer
            then [TradeIntent.mk t.symbol "KRX" "NXT" 1] else [])
          ++ (if (krx.bid - nxt.ask) / nxt.ask > d.fees + d.buffer
            then [TradeIntent.mk t.symbol "NXT" "KRX" 1] else [])))
    ∧ (TradeIntent.mk t.symbol "KRX" "NXT" 1 ∈
        ((if (nxt.bid - krx.ask) / krx.ask > d.fees + d.buffer
            then [TradeIntent.mk t.symbol "KRX" "NXT" 1] else [])
          ++ (if (krx.bid - nxt.ask) / nxt.ask > d.fees + d.buffer
            then [TradeIntent.mk t.symbol "NXT" "KRX" 1] else []))
        ↔ (nxt.bid - krx.ask) / krx.ask > d.fees + d.buffer)
    ∧ (TradeIntent.mk t.symbol "NXT" "KRX" 1 ∈
        ((if (nxt.bid - krx.ask) / krx.ask > d.fees + d.buffer
            then [TradeIntent.mk t.symbol "KRX" "NXT" 1] else [])
          ++ (if (krx.bid - nxt.ask) / nxt.ask > d.fees + d.buffer
            then [TradeIntent.mk t.symbol "NXT" "KRX" 1] else []))
        ↔ (krx.bid - nxt.ask) / nxt.ask > d.fees + d.buffer)
    ∧ ((if (nxt.bid - krx.ask) / krx.ask > d.fees + d.buffer
            then [TradeIntent.mk t.symbol "KRX" "NXT" 1] else [])
          ++ (if (krx.bid - nxt.ask) / nxt.ask > d.fees + d.buffer
            then [TradeIntent.mk t.symbol "NXT" "KRX" 1] else [])).length ≤ 2 := by
  simp only [tickKey] at hk hn
  refine ⟨?_, ?_, ?_, ?_⟩
  · simp only [onTick, hk, hn]
    rw [if_neg hka, if_neg hna]
  · by_cases h1 : (nxt.bid - krx.ask) / krx.ask > d.fees + d.buffer <;>
      by_cases h2 : (krx.bid - nxt.ask) / nxt.ask > d.fees + d.buffer <;>
      simp [h1, h2]
  · by_cases h1 : (nxt.bid - krx.ask) / krx.ask > d.fees + d.buffer <;>
      by_cases h2 : (krx.bid - nxt.ask) / nxt.ask > d.fees + d.buffer <;>
      simp [h1, h2]
  · by_cases h1 : (nxt.bid - krx.ask) / krx.ask > d.fees + d.buffer <;>
      by_cases h2 : (krx.bid - nxt.ask) / nxt.ask > d.fees + d.buffer <;>
      simp [h1, h2]

/-- An NXT tick with a low bid and ask 100, for the C6 counterexample. -/
def tick_nxt_low : Tick := Tick.mk sym0 "NXT" (1/2) 100

/-- A KRX tick with bid 200 and a zero ask, for the C6 counterexample. -/
def tick_krx_zero : Tick := Tick.mk sym0 "KRX" 200 0

/-- Claim C6, as stated, is false at a zero KRX ask: both venues have stored
quotes, and `(krx.bid − nxt.ask)/nxt.ask = (200 − 100)/100 = 1` strictly
exceeds the threshold, so the claim requires the buy-NXT/sell-KRX proposal
to be in the returned list — but the call raises `ZeroDivisionError` and
returns no list at all. -/
theorem C6_counterexample :
    (onTick (onTick (SpreadDetector.mk (7/20000) (1/10000) []) tick_nxt_low).1
        tick_krx_zero).2
      = Except.error PyError.zeroDivision := rfl

/-- Witness for C6: in the spec §8 end-to-end scenario (KRX bid 99.5 / ask
100, NXT bid 101 / ask 101.5) the NXT quote arriving second produces exactly
the one buy-KRX/sell-NXT proposal. -/
theorem C6_witness :
    (onTick (onTick (SpreadDetector.mk (7/20000) (1/10000) []) tick_krx).1
        tick_nxt).2
      = Except.ok [TradeIntent.mk sym0 "KRX" "NXT" 1] := by
  have h := (C6_both_directions
      (onTick (SpreadDetector.mk (7/20000) (1/10000) []) tick_krx).1
      tick_nxt tick_krx tick_nxt rfl rfl
      (by rw [show tick_krx.ask = 100 from rfl]; norm_num)
      (by rw [show tick_nxt.ask = 203/2 from rfl]; norm_num)).1
  rw [h]
  show Except.ok
      ((if ((101 : ℚ) - 100) / 100 > (7/20000 : ℚ) + 1/10000
          then [TradeIntent.mk sym0 "KRX" "NXT" 1] else [])
        ++ (if ((199/2 : ℚ) - 203/2) / (203/2) > (7/20000 : ℚ) + 1/10000
          then [TradeIntent.mk sym0 "NXT" "KRX" 1] else []))
      = Except.ok [TradeIntent.mk sym0 "KRX" "NXT" 1]
  rw [if_pos (by norm_num), if_neg (by norm_num)]
  rfl

/-! ## Quote-book history (claim C8) -/

/-- The most recently delivered tick with a given book key, if any. -/
def lastMatch : List Tick → BookKey → Option Tick
  | [], _ => none
  | t :: ts, k =>
    match lastMatch ts k with
    | some u => some u
    | none => if tickKey t = k then some t else none

/-- After a run of ticks, a key's stored quote is the last delivery for that
key, falling back to the initial book. -/
theorem get_runTicks (ts : List Tick) (d : SpreadDetector) (k : BookKey) :
    (runTicks d ts).book.get k
      = match lastMatch ts k with
        | some u => some u
        | none => d.book.get k := by
  induction ts generalizing d with
  | nil => rfl
  | cons t ts ih =>
    have hstep : runTicks d (t :: ts) = runTicks (onTick d t).1 ts := rfl
    rw [hstep, ih, onTick_fst]
    show (match lastMatch ts k with
        | some u => some u
        | none => (d.book.insert (tickKey t) t).get k)
      = _
    cases hlm : lastMatch ts k with
    | some u => simp [lastMatch, hlm]
    | none =>
      rw [Book.get_insert]
      by_cases hkt : tickKey t = k
      · simp [lastMatch, hlm, hkt]
      · have hkt' : ¬ k = tickKey t := fun hh => hkt hh.symm
        simp [lastMatch, hlm, hkt, hkt']

theorem aremove_sublist {α β : Type} [DecidableEq α]
    (l : List (α × β)) (k : α) : (aremove l k).Sublist l := by
  induction l with
  | nil => simp [aremove]
  | cons p l ih =>
    by_cases hp : p.1 = k
    · simp only [aremove, if_pos hp]
      exact ih.cons p
    · simp only [aremove, if_neg hp]
      exact ih.cons₂ p

theorem mem_aremove_ne {α β : Type} [DecidableEq α]
    (l : List (α × β)) (k : α) :
    ∀ p ∈ aremove l k, ¬ p.1 = k := by
  induction l with
  | nil => intro p hp; cases hp
  | cons q l ih =>
    intro p hp
    by_cases hq : q.1 = k
    · rw [show aremove (q :: l) k = aremove l k by simp [aremove, hq]] at hp
      exact ih p hp
    · rw [show aremove (q :: l) k = q :: aremove l k by
        simp [aremove, hq]] at hp
      rcases List.mem_cons.mp hp with h | h
      · rw [h]
        exact hq
      · exact ih p h

/-- Inserting into a dict with pairwise-distinct keys keeps the keys
pairwise distinct. -/
theorem nodup_keys_ainsert {α β : Type} [DecidableEq α]
    (l : List (α × β)) (k : α) (v : β)
    (h : (l.map Prod.fst).Nodup) :
    ((ainsert l k v).map Prod.fst).Nodup := by
  simp only [ainsert, List.map_cons, List.nodup_cons]
  constructor
  · intro hmem
    obtain ⟨p, hp, hpk⟩ := List.mem_map.mp hmem
    exact mem_aremove_ne l k p hp hpk
  · exact h.sublist ((aremove_sublist l k).map Prod.fst)

/-- A run of ticks preserves pairwise-distinct book keys. -/
theorem runTicks_nodup_keys (ts : List Tick) (d : SpreadDetector)
    (h : (d.book.map Prod.fst).Nodup) :
    ((runTicks d ts).book.map Prod.fst).Nodup := by
  induction ts generalizing d with
  | nil => exact h
  | cons t ts ih =>
    have hstep : runTicks d (t :: ts) = runTicks (onTick d t).1 ts := rfl
    rw [hstep]
    apply ih
    rw [onTick_fst]
    exact nodup_keys_ainsert d.book (tickKey t) t h

/-- Claim C8: after any sequence of `on_tick` calls starting from an empty
book, the book binds each `(krx_code, venue)` key at most once, and the
quote stored for a key is exactly the most recently delivered tick for that
key. -/
theorem C8_latest_write_wins (fees buffer : ℚ) (ts : List Tick)
    (k : BookKey) :
    ((runTicks (SpreadDetector.mk fees buffer []) ts).book.get k
        = lastMatch ts k)
    ∧ (((runTicks (SpreadDetector.mk fees buffer []) ts).book.map
          Prod.fst).Nodup) := by
  constructor
  · rw [get_runTicks ts (SpreadDetector.mk fees buffer []) k]
    cases lastMatch ts k <;> rfl
  · exact runTicks_nodup_keys ts (SpreadDetector.mk fees buffer [])
      (by simp)

/-! ## Single-leg submission (claim C7) -/

/-- Characterisation of the wait loop: exactly the events arriving strictly
before the deadline are received, in order; the first of them carrying the
awaited code decides the outcome (error indicator → `OrderError`, otherwise
confirmed); if none of them carries it — whether because the queue runs dry
or because the next event arrives too late — the wait ends in
`No fill confirmation received`. -/
theorem waitForFill_characterisation (code : String) (dl : ℚ)
    (events : List ChejanEvent) :
    waitForFill code dl events
      = match List.find? (fun e => e.code = code)
            (List.takeWhile (fun e => decide (e.arrival < dl)) events) with
        | none => Except.error OrderError.noConfirmation
        | some e =>
          if e.error = "" then Except.ok ()
          else Except.error (OrderError.fillError e.error) := by
  induction events with
  | nil => rfl
  | cons e rest ih =>
    by_cases hl : dl ≤ e.arrival
    · have hnl : ¬ e.arrival < dl := not_lt.mpr hl
      simp [waitForFill, hl, List.takeWhile_cons, hnl]
    · have hlt : e.arrival < dl := lt_of_not_ge hl
      by_cases hc : e.code = code
      · simp [waitForFill, hl, hlt, List.takeWhile_cons, List.find?_cons, hc]
      · simp only [waitForFill, if_neg hl, if_neg hc]
        rw [ih]
        have : List.takeWhile (fun e => decide (e.arrival < dl)) (e :: rest)
            = e :: List.takeWhile (fun e => decide (e.arrival < dl)) rest := by
          simp [List.takeWhile_cons, hlt]
        rw [this]
        have : List.find? (fun e => e.code = code)
            (e :: List.takeWhile (fun e => decide (e.arrival < dl)) rest)
            = List.find? (fun e => e.code = code)
                (List.takeWhile (fun e => decide (e.arrival < dl)) rest) := by
          simp [List.find?_cons, hc]
        rw [this]

/-- Claim C7: a single-leg submission raises `OrderError` exactly when the
transport rejects the submission (non-zero `SendOrder` return), or the first
in-window event correlated to the awaited code carries a truthy error
indicator, or no correlated event arrives before the 5-second deadline; a
correlated in-window event without error confirms the leg, and uncorrelated
events are discarded without ending the wait. -/
theorem C7_submit_and_wait_outcomes (ret : ℤ) (code : String) (start : ℚ)
    (events : List ChejanEvent) :
    submit_and_wait ret code start events
      = if ret ≠ 0 then Except.error (OrderError.sendOrderFailed ret)
        else
          match List.find? (fun e => e.code = code)
              (List.takeWhile (fun e => decide (e.arrival < start + 5))
                events) with
          | none => Except.error OrderError.noConfirmation
          | some e =>
            if e.error = "" then Except.ok ()
            else Except.error (OrderError.fillError e.error) := by
  unfold submit_and_wait
  by_cases hr : ret ≠ 0
  · simp [hr]
  · rw [if_neg hr, if_neg hr]
    exact waitForFill_characterisation code (start + 5) events

/-! ## Paired-order submission (claim C1) -/

/-- The dead body of `_send` (the statements after the initial `raise`, and
the behaviour its docstring documents) does satisfy the claimed protocol:
when the buy leg confirms and the sell leg raises, exactly one flattening
SELL of the same quantity is attempted on the buy-leg code and the sell
leg's original error is re-raised, for every outcome of the flatten
attempt. -/
theorem sendBody_flatten_policy (intent : TradeIntent) (e : OrderError)
    (flatRes : Except OrderError Unit) :
    sendBody intent (Except.ok ()) (Except.error e) flatRes
      = (Except.error (SendError.orderError e),
         [Submission.mk (buyCode intent) "BUY" intent.qty,
          Submission.mk (sellCode intent) "SELL" intent.qty,
          Submission.mk (buyCode intent) "SELL" intent.qty]) := rfl

/-- The dead body of `_send` on a failed buy leg: the proposal fails
immediately with the buy leg's error and no further submission (in
particular no flatten) is attempted. -/
theorem sendBody_buy_failure (intent : TradeIntent) (e : OrderError)
    (sellRes flatRes : Except OrderError Unit) :
    sendBody intent (Except.error e) sellRes flatRes
      = (Except.error (SendError.orderError e),
         [Submission.mk (buyCode intent) "BUY" intent.qty]) := rfl

/-- Claim C1 is about behaviour the shipped `_send` cannot exhibit: its
first statement raises `NotImplementedError`, so executing any approved
proposal — here the concrete `intent0` — raises before a single order is
submitted; the two-leg protocol with the flatten recovery that the claim
(and the method's own docstring, stranded after the `raise`) describes is
dead code. -/
theorem C1_send_raises_not_implemented :
    send intent0
      = (Except.error (SendError.notImplementedError
          "Order submission to Kiwoom pending"), []) := rfl

/-! ## Rate limiter (claim C9) -/

/-- Spacing property of the recorded submission timestamps: each timestamp
is at least one second after the timestamp five submissions earlier, so any
rolling window shorter than one second holds at most 5 submissions. -/
def spaced (ts : List ℚ) : Prop :=
  ∀ i, i + 5 < ts.length → ts.getD i 0 + 1 ≤ ts.getD (i + 5) 0

/-- One `_throttle` call, relative to a full history `acc` of which the
deque holds the most recent five entries: the recorded timestamp extends the
history keeping it sorted, bounded by the new timestamp, correctly spaced,
and the new deque again holds the last five entries. -/
theorem throttle_step (acc : List ℚ) (last now : ℚ) (st : Throttle)
    (hwin : st.req_times = acc.drop (acc.length - 5))
    (hsort : acc.Pairwise (fun a b => a ≤ b))
    (hub : ∀ x ∈ acc, x ≤ last)
    (hsp : spaced acc)
    (hlast : last ≤ now) :
    ((throttle st now).1.req_times
        = (acc ++ [(throttle st now).2]).drop
            ((acc ++ [(throttle st now).2]).length - 5))
    ∧ ((acc ++ [(throttle st now).2]).Pairwise (fun a b => a ≤ b))
    ∧ (∀ x ∈ acc ++ [(throttle st now).2], x ≤ (throttle st now).2)
    ∧ spaced (acc ++ [(throttle st now).2]) := by
  by_cases hbig : 5 ≤ acc.length
  · have hlen5 : st.req_times.length = 5 := by
      rw [hwin, List.length_drop]
      omega
    cases hreq : st.req_times with
    | nil =>
      rw [hreq] at hlen5
      simp at hlen5
    | cons old rest2 =>
      have hlen5' : (old :: rest2).length = 5 := by
        rw [← hreq]
        exact hlen5
      have hdrop : acc.drop (acc.length - 5) = old :: rest2 := by
        rw [← hwin]
        exact hreq
      have hget : acc[acc.length - 5]? = some old := by
        have h0 : (acc.drop (acc.length - 5))[0]? = some old := by
          rw [hdrop]
          simp
        rw [List.getElem?_drop] at h0
        simpa using h0
      have hold_getD : acc.getD (acc.length - 5) 0 = old := by
        simp [List.getD_eq_getElem?_getD, hget]
      have hold_mem : old ∈ acc :=
        List.drop_subset _ _ (by rw [hdrop]; exact List.mem_cons_self _ _)
      have hold_now : old ≤ now := le_trans (hub old hold_mem) hlast
      obtain ⟨t, ht, htnow, htold⟩ :
          ∃ t, throttle st now = (Throttle.mk (rest2 ++ [t]), t)
            ∧ now ≤ t ∧ old + 1 ≤ t := by
        by_cases hc : now - old < 1
        · refine ⟨old + 1, ?_, by linarith, le_refl _⟩
          simp [throttle, hreq, hlen5', hc]
        · refine ⟨now, ?_, le_refl _, by linarith⟩
          simp [throttle, hreq, hlen5', hc]
      rw [ht]
      have hub_t : ∀ x ∈ acc, x ≤ t :=
        fun x hx => le_trans (hub x hx) (le_trans hlast htnow)
      refine ⟨?_, ?_, ?_, ?_⟩
      · show rest2 ++ [t] = (acc ++ [t]).drop ((acc ++ [t]).length - 5)
        have hlenapp : (acc ++ [t]).length - 5 = (acc.length - 5) + 1 := by
          simp [List.length_append]
          omega
        rw [hlenapp, List.drop_append_eq_append_drop]
        have h1 : acc.drop (acc.length - 5 + 1) = rest2 := by
          rw [← List.tail_drop, hdrop, List.tail_cons]
        have h2 : acc.length - 5 + 1 - acc.length = 0 := by omega
        rw [h1, h2]
        rfl
      · show (acc ++ [t]).Pairwise (fun a b => a ≤ b)
        rw [List.pairwise_append]
        refine ⟨hsort, List.pairwise_singleton _ _, ?_⟩
        intro x hx y hy
        obtain rfl := List.mem_singleton.mp hy
        exact hub_t x hx
      · show ∀ x ∈ acc ++ [t], x ≤ t
        intro x hx
        rcases List.mem_append.mp hx with h | h
        · exact hub_t x h
        · obtain rfl := List.mem_singleton.mp h
          exact le_refl _
      · show spaced (acc ++ [t])
        intro i hi
        simp only [List.length_append, List.length_cons,
          List.length_nil] at hi
        by_cases hi5 : i + 5 < acc.length
        · rw [List.getD_append _ _ _ _ (by omega),
            List.getD_append _ _ _ _ hi5]
          exact hsp i hi5
        · have hieq : i + 5 = acc.length := by omega
          rw [List.getD_append _ _ _ _ (by omega)]
          rw [hieq, List.getD_append_right _ _ _ _ (le_refl _)]
          simp only [Nat.sub_self, List.getD_cons_zero]
          have hi' : i = acc.length - 5 := by omega
          rw [hi', hold_getD]
          exact htold
  · have hm0 : acc.length - 5 = 0 := by omega
    have hreqacc : st.req_times = acc := by
      rw [hwin, hm0]
      rfl
    obtain ⟨t, ht, htnow⟩ :
        ∃ t, throttle st now = (Throttle.mk (acc ++ [t]), t) ∧ now ≤ t := by
      cases hacc : acc with
      | nil =>
        refine ⟨now, ?_, le_refl _⟩
        rw [hacc] at hreqacc
        simp [throttle, hreqacc]
      | cons a as =>
        rw [hacc] at hreqacc hbig
        have hlen4 : ¬ (as.length = 4) := by
          simp only [List.length_cons] at hbig
          omega
        refine ⟨now, ?_, le_refl _⟩
        simp [throttle, hreqacc, hlen4]
    rw [ht]
    have hub_t : ∀ x ∈ acc, x ≤ t :=
      fun x hx => le_trans (hub x hx) (le_trans hlast htnow)
    refine ⟨?_, ?_, ?_, ?_⟩
    · show acc ++ [t] = (acc ++ [t]).drop ((acc ++ [t]).length - 5)
      have hz : (acc ++ [t]).length - 5 = 0 := by
        simp [List.length_append]
        omega
      rw [hz]
      rfl
    · show (acc ++ [t]).Pairwise (fun a b => a ≤ b)
      rw [List.pairwise_append]
      refine ⟨hsort, List.pairwise_singleton _ _, ?_⟩
      intro x hx y hy
      obtain rfl := List.mem_singleton.mp hy
      exact hub_t x hx
    · show ∀ x ∈ acc ++ [t], x ≤ t
      intro x hx
      rcases List.mem_append.mp hx with h | h
      · exact hub_t x h
      · obtain rfl := List.mem_singleton.mp h
        exact le_refl _
    · show spaced (acc ++ [t])
      intro i hi
      exfalso
      simp only [List.length_append, List.length_cons,
        List.length_nil] at hi
      omega

/-- Running `_throttle` from a deque that holds the last five entries of a
sorted, spaced, clock-bounded history keeps the extended history sorted and
spaced. -/
theorem throttleRun_sorted_spaced (nows : List ℚ) :
    ∀ (acc : List ℚ) (last : ℚ) (st : Throttle),
    st.req_times = acc.drop (acc.length - 5) →
    acc.Pairwise (fun a b => a ≤ b) →
    (∀ x ∈ acc, x ≤ last) →
    spaced acc →
    validCalls last st nows →
    ((acc ++ (throttleRun st nows).2).Pairwise (fun a b => a ≤ b)
      ∧ spaced (acc ++ (throttleRun st nows).2)) := by
  induction nows with
  | nil =>
    intro acc last st _ hsort _ hsp _
    simpa [throttleRun] using ⟨hsort, hsp⟩
  | cons now rest ih =>
    intro acc last st hwin hsort hub hsp hval
    have hval2 : last ≤ now
        ∧ validCalls (throttle st now).2 (throttle st now).1 rest := hval
    obtain ⟨hlast, hval'⟩ := hval2
    obtain ⟨hwin', hsort', hub', hsp'⟩ :=
      throttle_step acc last now st hwin hsort hub hsp hlast
    have hres := ih (acc ++ [(throttle st now).2]) (throttle st now).2
      (throttle st now).1 hwin' hsort' hub' hsp' hval'
    have hstep : (throttleRun st (now :: rest)).2
        = (throttle st now).2 :: (throttleRun (throttle st now).1 rest).2 :=
      rfl
    rw [hstep,
      show acc ++ (throttle st now).2
            :: (throttleRun (throttle st now).1 rest).2
          = (acc ++ [(throttle st now).2])
            ++ (throttleRun (throttle st now).1 rest).2 by simp]
    exact hres

/-- Sorted timestamp lists are monotone position-wise. -/
theorem pairwise_le_getD (ts : List ℚ)
    (hsort : ts.Pairwise (fun a b => a ≤ b))
    (a b : ℕ) (hab : a ≤ b) (hb : b < ts.length) :
    ts.getD a 0 ≤ ts.getD b 0 := by
  rcases Nat.lt_or_ge a b with h | h
  · have hr := List.pairwise_iff_getElem.mp hsort a b (by omega) hb h
    rw [List.getD_eq_getElem _ _ (by omega : a < ts.length),
      List.getD_eq_getElem _ _ hb]
    exact hr
  · have hba : a = b := by omega
    rw [hba]

/-- Claim C9: with the clock explicit (sleeps advance it exactly, all else
is instantaneous) and calls never starting before the previous call
returned, the limiter admits at most 5 submissions per rolling 1-second
window: when the 5-slot deque is full and less than one second elapsed since
its oldest entry, the call blocks for exactly the remaining deficit before
recording (first conjunct); and the recorded timestamps are monotone, every
pair five apart is at least one second apart, and any window of recorded
timestamps spanning less than one second holds at most 5 of them. -/
theorem C9_rate_limit_window (t0 : ℚ) (nows : List ℚ)
    (hval : validCalls t0 (Throttle.mk []) nows) :
    (∀ (st : Throttle) (now old : ℚ) (rest2 : List ℚ),
        st.req_times = old :: rest2 → st.req_times.length = 5 →
        now - old < 1 →
        (throttle st now).2 = now + (1 - (now - old)))
    ∧ ((throttleRun (Throttle.mk []) nows).2.Pairwise (fun a b => a ≤ b))
    ∧ spaced (throttleRun (Throttle.mk []) nows).2
    ∧ (∀ i j, j < (throttleRun (Throttle.mk []) nows).2.length → i ≤ j →
        (throttleRun (Throttle.mk []) nows).2.getD j 0
          < (throttleRun (Throttle.mk []) nows).2.getD i 0 + 1 →
        j ≤ i + 4) := by
  have hbase := throttleRun_sorted_spaced nows [] t0 (Throttle.mk []) rfl
    List.Pairwise.nil (by intro x hx; cases hx)
    (by intro i hi; simp at hi) hval
  rw [List.nil_append] at hbase
  obtain ⟨hsorted, hspaced⟩ := hbase
  refine ⟨?_, hsorted, hspaced, ?_⟩
  · intro st now old rest2 hreq hlen hc
    have hlen' : (old :: rest2).length = 5 := by
      rw [← hreq]
      exact hlen
    have ht : throttle st now = (Throttle.mk (rest2 ++ [old + 1]), old + 1) := by
      simp [throttle, hreq, hlen', hc]
    rw [ht]
    show old + 1 = now + (1 - (now - old))
    ring
  · intro i j hj hij hclose
    by_contra hcon
    have h5 : i + 5 ≤ j := by omega
    have hstep5 := hspaced i (by omega)
    have hmono := pairwise_le_getD _ hsorted (i + 5) j h5 hj
    linarith

/-- Witness for C9: six immediate submissions starting at clock 0 record
timestamps `[0, 0, 0, 0, 0, 1]` — sorted and correctly spaced (the sixth is
delayed a full second past the first). -/
theorem C9_witness :
    ((throttleRun (Throttle.mk []) [0, 0, 0, 0, 0, 0]).2.Pairwise
        (fun a b => a ≤ b))
    ∧ spaced (throttleRun (Throttle.mk []) [0, 0, 0, 0, 0, 0]).2 :=
  ⟨(C9_rate_limit_window 0 [0, 0, 0, 0, 0, 0] (by decide)).2.1,
   (C9_rate_limit_window 0 [0, 0, 0, 0, 0, 0] (by decide)).2.2.1⟩

end Anatta
